import Mathlib

/-!
Verification of the PytriNets Petri-net library: a shallow embedding of
`pytrinets/nets/petri.py` and `pytrinets/nets/reachability.py`.

Python dictionaries (`defaultdict(int)`) are modelled as association lists
`List (Place × Int)` with first-match lookup and a default of `0`; Python
sets are modelled as lists (iteration order is explicit, which lets us test
order-(in)sensitivity by permuting them).  Object identity of `PetriNet`
and `Place` instances is modelled by an identity field (`pid` / `id`):
distinct objects receive distinct identities, and Python's default
identity-based `==`/`hash` becomes structural equality on the model.
-/

/-- The node identity layer: `Place(name)`; `id` models Python object
identity (Place defines no `__eq__`, so two places are equal only if they
are the same object). -/
structure Place where
  id : Nat
  name : String
deriving DecidableEq, Repr, Inhabited

/-- `Transition(name, incoming_places, outgoing_places)`: a named node with
two sets of place references, modelled as lists. -/
structure Transition where
  name : String
  incoming : List Place
  outgoing : List Place
deriving DecidableEq, Repr, Inhabited

/-- `PetriNet`: owns its places and transitions.  `pid` models object
identity of the net (used by `Marking.__eq__` / `__hash__`, since
`PetriNet` defines no `__eq__`). -/
structure PetriNet where
  pid : Nat
  places : List Place
  transitions : List Transition
deriving DecidableEq, Repr, Inhabited

/-- `Marking(origin, marking)`: a token-count snapshot over a net; the
`defaultdict(int)` is an association list (first match wins, absent keys
read as zero). -/
structure Marking where
  origin : PetriNet
  entries : List (Place × Int)
deriving DecidableEq, Repr, Inhabited

/-- The error taxonomy of the spec (the Python code raises `ValueError` /
`KeyError` / `AttributeError` with these meanings). -/
inductive PyErr where
  | duplicateName (name : String)
  | invalidReference
  | unknownPlace (name : String)
  | attributeError (attr : String)
deriving DecidableEq, Repr

/-- Reading `d[p]` from a `defaultdict(int)`: first matching entry, else 0. -/
def lookupD : List (Place × Int) → Place → Int
  | [], _ => 0
  | e :: es, p => if e.1 = p then e.2 else lookupD es p

/-- Writing `d[p] = v` to a dict: update the first matching entry in place,
or append a fresh entry (Python dicts keep insertion order). -/
def setD : List (Place × Int) → Place → Int → List (Place × Int)
  | [], p, v => [(p, v)]
  | e :: es, p, v => if e.1 = p then (p, v) :: es else e :: setD es p v

/-- `d[p] += delta` on a `defaultdict(int)` (inserts the key when absent). -/
def incD (d : List (Place × Int)) (p : Place) (delta : Int) : List (Place × Int) :=
  setD d p (lookupD d p + delta)

/-- `Marking.__eq__` restricted to two `Marking` operands: origins must be
the same object, then token counts are compared on every place of the
origin net (absent entries read as zero on both sides). -/
def markingEq (m1 m2 : Marking) : Bool :=
  decide (m1.origin = m2.origin) &&
    m1.origin.places.all (fun p => decide (lookupD m1.entries p = lookupD m2.entries p))

/-- Model of Python `hash(place)` (identity hash). -/
def placeHash (p : Place) : Int := p.id

/-- Model of Python `hash(petri_net)` (identity hash). -/
def netHash (n : PetriNet) : Int := n.pid

/-- The sum in `Marking.__hash__`: `sum(hash(place) * tokens for place,
tokens in self.__marking.items())`. -/
def entriesHash (l : List (Place × Int)) : Int :=
  (l.map (fun e => placeHash e.1 * e.2)).sum

/-- `Marking.__hash__`: `hash(self.__origin) + sum(hash(place) * tokens ...)`. -/
def markingHash (m : Marking) : Int :=
  netHash m.origin + entriesHash m.entries

/-- `Marking.can_fire`: `all(self.__marking[place] > 0 for place in
transition.incoming_places)`. -/
def can_fire (m : Marking) (t : Transition) : Bool :=
  t.incoming.all (fun p => decide (0 < lookupD m.entries p))

/-- The dict produced by `Marking.fire`: copy the dict, decrement each
incoming place, increment each outgoing place. -/
def fireEntries (d : List (Place × Int)) (t : Transition) : List (Place × Int) :=
  t.outgoing.foldl (fun acc p => incD acc p 1)
    (t.incoming.foldl (fun acc p => incD acc p (-1)) d)

/-- `Marking.fire`: returns `Marking(self.__origin, marking)` built from a
copy of the receiver's dict. -/
def fire (m : Marking) (t : Transition) : Marking :=
  ⟨m.origin, fireEntries m.entries t⟩

/-- Does the list (modelling a Python `set` of markings, or of
`ReachabilityNode`s whose `__eq__`/`__hash__` delegate to the marking)
contain a member equal to `m` under `Marking.__eq__`? -/
def containsMk (l : List Marking) (m : Marking) : Bool :=
  l.any (fun x => markingEq x m)

/-- `set.add` for a set keyed by `Marking.__eq__`: a no-op when an equal
member is present. -/
def addMk (l : List Marking) (m : Marking) : List Marking :=
  if containsMk l m then l else l ++ [m]

/-- `Marking.available_markings`: the set of `self.fire(t)` over all
enabled transitions `t` of the origin net, deduplicated by marking
equality (it is a Python `set`). -/
def available_markings (m : Marking) : List Marking :=
  ((m.origin.transitions.filter (fun t => can_fire m t)).map (fun t => fire m t)).foldl
    addMk []

/-- `PetriNet.__add_transition(transition)`: rejects a duplicate transition
name, then requires every referenced place to be a member of the net. -/
def addTransitionObj (net : PetriNet) (t : Transition) : Except PyErr PetriNet :=
  if net.transitions.any (fun t2 => t2.name == t.name) then
    .error (.duplicateName t.name)
  else if t.incoming.all (fun p => decide (p ∈ net.places)) &&
          t.outgoing.all (fun p => decide (p ∈ net.places)) then
    .ok { net with transitions := net.transitions ++ [t] }
  else
    .error .invalidReference

/-- `PetriNet.add_transition(name, incoming_places, outgoing_places)`: the
name-based convenience call; names are resolved against the net's current
places by comprehension (unmatched names are silently dropped). -/
def add_transition (net : PetriNet) (name : String) (inc out : List String) :
    Except PyErr PetriNet :=
  addTransitionObj net
    ⟨name, net.places.filter (fun p => p.name ∈ inc),
           net.places.filter (fun p => p.name ∈ out)⟩

/-- `PetriNet.compile_marking`: `{self.__places_map[name]: tokens for name,
tokens in marking.items()}`.  An unresolvable name raises (`KeyError`,
i.e. the spec's `UnknownPlaceError`) at the first offending item. -/
def compile_marking (net : PetriNet) : List (String × Int) → Except PyErr (List (Place × Int))
  | [] => .ok []
  | (nm, tk) :: rest =>
    match net.places.find? (fun p => p.name == nm) with
    | some pl =>
      match compile_marking net rest with
      | .ok d => .ok ((pl, tk) :: d)
      | .error e => .error e
    | none => .error (.unknownPlace nm)

/-- `PetriNet.as_marked(marking)`: `none` models the `marking is None`
default (every place at zero); otherwise the name→count mapping is
compiled against this net. -/
def as_marked (net : PetriNet) (tc : Option (List (String × Int))) : Except PyErr Marking :=
  match tc with
  | none => .ok ⟨net, net.places.map (fun p => (p, 0))⟩
  | some l =>
    match compile_marking net l with
    | .ok d => .ok ⟨net, d⟩
    | .error e => .error e

/-- The dynamic values a `Marking` can be compared against at the public
interface: the library's own classes plus primitives.  Only `Marking` has
an `origin` attribute. -/
inductive PyValue where
  | marking (m : Marking)
  | place (p : Place)
  | transition (t : Transition)
  | petrinet (n : PetriNet)
  | int (n : Int)
  | str (s : String)
  | none
deriving DecidableEq, Repr

/-- Attribute lookup `v.origin`: defined only on `Marking`. -/
def origin_attr : PyValue → Option PetriNet
  | .marking m => some m.origin
  | _ => Option.none

/-- A `ReachabilityNode` object: `nid` models Python object identity (the
allocation index in the run); `incoming`/`outgoing` are its sets of linked
nodes, observed through their markings (node `__eq__`/`__hash__` delegate
to the marking, so a set of nodes is a set of markings). -/
structure RNode where
  nid : Nat
  marking : Marking
  incoming : List Marking
  outgoing : List Marking
deriving DecidableEq, Repr, Inhabited

/-- The mutable state of the `reachability` loop: the heap of all node
objects allocated so far (index = identity), the `visited` dict from
marking to canonical node, the FIFO queue of node references, and the
dead-end set. -/
structure RState where
  nodes : List RNode
  visited : List (Marking × Nat)
  queue : List Nat
  dead_ends : List Nat
deriving DecidableEq, Repr, Inhabited

/-- Lookup in the `visited` dict (keyed by `Marking.__eq__`). -/
def visitedLookup (vs : List (Marking × Nat)) (m : Marking) : Option Nat :=
  (vs.find? (fun kv => markingEq kv.1 m)).map (fun kv => kv.2)

/-- In-place mutation of the node object at reference `i`. -/
def updNode (ns : List RNode) (i : Nat) (f : RNode → RNode) : List RNode :=
  ns.set i (f (ns.getD i default))

/-- `current.add_outgoing_node(new_node); new_node.add_incoming_node(current)`. -/
def linkNodes (st : RState) (cur nid : Nat) : RState :=
  let st1 := { st with
    nodes := updNode st.nodes cur
      (fun n => { n with outgoing := addMk n.outgoing ((st.nodes.getD nid default).marking) }) }
  { st1 with
    nodes := updNode st1.nodes nid
      (fun n => { n with incoming := addMk n.incoming ((st1.nodes.getD cur default).marking) }) }

/-- The body of `for marking in available_markings` for one successor
marking: reuse the canonical node when the marking is visited, otherwise
allocate a fresh node and enqueue it; then link both directions. -/
def processOne (st : RState) (cur : Nat) (m : Marking) : RState :=
  match visitedLookup st.visited m with
  | some nid => linkNodes st cur nid
  | Option.none =>
    let nid := st.nodes.length
    let st1 : RState :=
      { st with nodes := st.nodes ++ [⟨nid, m, [], []⟩], queue := st.queue ++ [nid] }
    linkNodes st1 cur nid

/-- The whole `for marking in available_markings` loop. -/
def processSuccs (st : RState) (cur : Nat) (succs : List Marking) : RState :=
  succs.foldl (fun s m => processOne s cur m) st

/-- `ReachabilityGraph(root, set(visited.values()), dead_ends)`: the final
snapshots of the root node, the canonical nodes and the dead-end nodes. -/
structure ReachabilityGraph where
  root : RNode
  nodes : List RNode
  dead_ends : List RNode
deriving DecidableEq, Repr, Inhabited

/-- Builds the returned `ReachabilityGraph` from the loop state. -/
def mkGraph (st : RState) : ReachabilityGraph :=
  ⟨st.nodes.getD 0 default,
   st.visited.map (fun kv => st.nodes.getD kv.2 default),
   st.dead_ends.map (fun i => st.nodes.getD i default)⟩

/-- Outcome of a run: a graph, the strict-mode bound error (`ValueError`,
the spec's `BoundExceededError`), or fuel exhaustion (a model artifact:
the Python loop has no fuel, and every run below is given enough fuel for
this case never to arise). -/
inductive RunResult where
  | graph (g : ReachabilityGraph)
  | boundError
  | outOfFuel
deriving DecidableEq, Repr

/-- The `while queue:` loop of `reachability`, one unfolding per iteration:
pop; skip if already visited; record in `visited`; compute successors;
dead end if none; otherwise process each successor, bump the iteration
counter and stop at the bound (raise in strict mode, break in lenient
mode). -/
def reachLoop : Nat → RState → Nat → Nat → Bool → RunResult
  | 0, _, _, _, _ => .outOfFuel
  | fuel + 1, st, it, maxIt, throwErr =>
    match st.queue with
    | [] => .graph (mkGraph st)
    | cur :: rest =>
      let curM := (st.nodes.getD cur default).marking
      if (visitedLookup st.visited curM).isSome then
        reachLoop fuel { st with queue := rest } it maxIt throwErr
      else
        let st1 : RState := { st with visited := st.visited ++ [(curM, cur)], queue := rest }
        let succs := available_markings curM
        if succs.isEmpty then
          reachLoop fuel { st1 with dead_ends := st1.dead_ends ++ [cur] } it maxIt throwErr
        else
          let st2 := processSuccs st1 cur succs
          if maxIt ≤ it + 1 then
            if throwErr then .boundError else .graph (mkGraph st2)
          else
            reachLoop fuel st2 (it + 1) maxIt throwErr

/-- The loop state after `root = ReachabilityNode(initial_marking)` and
`queue = deque([root])`. -/
def initState (m0 : Marking) : RState :=
  ⟨[⟨0, m0, [], []⟩], [], [0], []⟩

/-- `reachability(initial_marking, max_iterations, throw_error)`; `fuel`
bounds the number of loop iterations in the model. -/
def reachability (m0 : Marking) (maxIt : Nat) (throwErr : Bool) (fuel : Nat) : RunResult :=
  reachLoop fuel (initState m0) 0 maxIt throwErr

/-- Observation: the graph of a run, when it returned one. -/
def runGraph : RunResult → Option ReachabilityGraph
  | .graph g => some g
  | _ => Option.none

/-- Observation: the node of the graph whose marking equals `m`. -/
def nodeFor (g : ReachabilityGraph) (m : Marking) : Option RNode :=
  g.nodes.find? (fun n => markingEq n.marking m)

/-- Observation: how many distinct nodes the returned graph has. -/
def nodeCount (r : RunResult) : Option Nat :=
  (runGraph r).map (fun g => g.nodes.length)

/-- Observation: the outgoing set (as markings) of the node for `m`. -/
def outgoingOf (r : RunResult) (m : Marking) : Option (List Marking) :=
  (runGraph r).bind (fun g => (nodeFor g m).map (fun n => n.outgoing))

/-- Observation: the incoming set (as markings) of the node for `m`. -/
def incomingOf (r : RunResult) (m : Marking) : Option (List Marking) :=
  (runGraph r).bind (fun g => (nodeFor g m).map (fun n => n.incoming))

/-- Observation: is the node for `m` in the dead-end set? -/
def isDeadEnd (r : RunResult) (m : Marking) : Option Bool :=
  (runGraph r).map (fun g => g.dead_ends.any (fun n => markingEq n.marking m))

/-- Observation: the token counts at place `p` across the incoming set of
the node for `m` (a net-independent fingerprint of the incoming edges). -/
def tokensAtIncoming (r : RunResult) (m : Marking) (p : Place) : Option (List Int) :=
  (incomingOf r m).map (fun l => l.map (fun mk => lookupD mk.entries p))

/-- `Marking.__eq__(self, other)` at the dynamic level, in source order:
`other.origin` is read first (an `AttributeError` if absent), then origins
are compared, then the `isinstance` guard runs, then token counts are
compared place by place. -/
def markingEqPy (m : Marking) (v : PyValue) : Except PyErr Bool :=
  match origin_attr v with
  | Option.none => .error (.attributeError "origin")
  | some o =>
    if m.origin = o then
      match v with
      | .marking m2 =>
        .ok (m.origin.places.all
          (fun p => decide (lookupD m.entries p = lookupD m2.entries p)))
      | _ => .ok false
    else
      .ok false

/-- The self-loop scenario's place `p`. -/
def pSelf : Place := ⟨0, "p"⟩

/-- The self-loop scenario: one place `p`, one transition `t` with
incoming `{p}` and outgoing `{p}`. -/
def selfLoopNet : PetriNet := ⟨0, [pSelf], [⟨"t", [pSelf], [pSelf]⟩]⟩

/-- The self-loop scenario's initial marking `{p: 1}`. -/
def selfLoopM0 : Marking := ⟨selfLoopNet, [(pSelf, 1)]⟩

/-- The self-loop run with the default bound of 100000, strict mode. -/
def selfLoopRun : RunResult := reachability selfLoopM0 100000 true 10

/-- The two-place cycle's place `p1`. -/
def pC1 : Place := ⟨1, "p1"⟩

/-- The two-place cycle's place `p2`. -/
def pC2 : Place := ⟨2, "p2"⟩

/-- The two-place cycle net `p1 → t1 → p2 → t2 → p1`. -/
def cycleNet : PetriNet :=
  ⟨1, [pC1, pC2], [⟨"t1", [pC1], [pC2]⟩, ⟨"t2", [pC2], [pC1]⟩]⟩

/-- The cycle's initial marking `{p1: 1}`. -/
def cycleM0 : Marking := ⟨cycleNet, [(pC1, 1)]⟩

/-! ### Dictionary lemmas -/

/-- Reading after writing: `setD` behaves as a pointwise update. -/
theorem lookupD_setD (d : List (Place × Int)) (a p : Place) (v : Int) :
    lookupD (setD d a v) p = if a = p then v else lookupD d p := by
  induction d with
  | nil => simp [setD, lookupD]
  | cons e es ih =>
    by_cases h : e.1 = a
    · subst h
      simp only [setD, if_pos rfl, lookupD]
      by_cases hp : e.1 = p <;> simp [hp]
    · simp only [setD, if_neg h, lookupD, ih]
      by_cases hp : e.1 = p
      · have hap : ¬ a = p := fun h2 => h (hp.trans h2.symm)
        simp [hp, hap]
      · simp [hp]

/-- Reading after a `defaultdict` increment. -/
theorem lookupD_incD (d : List (Place × Int)) (a p : Place) (delta : Int) :
    lookupD (incD d a delta) p = lookupD d p + if a = p then delta else 0 := by
  unfold incD
  rw [lookupD_setD]
  by_cases h : a = p
  · subst h; simp
  · simp [h]

/-- A fold of increments over a duplicate-free list of places adds `delta`
exactly to the members of the list. -/
theorem lookupD_foldl_incD (l : List Place) (d : List (Place × Int)) (p : Place)
    (delta : Int) (hnd : l.Nodup) :
    lookupD (l.foldl (fun acc q => incD acc q delta) d) p =
      lookupD d p + if p ∈ l then delta else 0 := by
  induction l generalizing d with
  | nil => simp
  | cons q qs ih =>
    rw [List.nodup_cons] at hnd
    rw [List.foldl_cons, ih _ hnd.2, lookupD_incD]
    by_cases hq : q = p
    · subst hq
      simp [hnd.1, List.mem_cons]
    · by_cases hm : p ∈ qs
      · simp [hq, hm, List.mem_cons]
      · have hno : p ∉ q :: qs := by
          simp only [List.mem_cons, not_or]
          exact ⟨fun h => hq h.symm, hm⟩
        simp [hq, hm, hno]

/-- A key that occurs in no entry reads as zero. -/
theorem lookupD_eq_zero_of_not_mem (d : List (Place × Int)) (p : Place)
    (h : ∀ e ∈ d, e.1 ≠ p) : lookupD d p = 0 := by
  induction d with
  | nil => rfl
  | cons e es ih =>
    have : e.1 ≠ p := h e (List.mem_cons_self e es)
    simp only [lookupD, if_neg this]
    exact ih (fun x hx => h x (List.mem_cons_of_mem e hx))

/-! ### Marking equality and hash -/

/-- Unfolding of `Marking.__eq__` for two markings. -/
theorem markingEq_true_iff (m1 m2 : Marking) :
    markingEq m1 m2 = true ↔
      m1.origin = m2.origin ∧
        ∀ p ∈ m1.origin.places, lookupD m1.entries p = lookupD m2.entries p := by
  simp [markingEq, List.all_eq_true]

/-- `Marking.__eq__` is reflexive. -/
theorem markingEq_refl (m : Marking) : markingEq m m = true := by
  simp [markingEq_true_iff]

/-- `Marking.__eq__` is transitive. -/
theorem markingEq_trans {a b c : Marking} (h1 : markingEq a b = true)
    (h2 : markingEq b c = true) : markingEq a c = true := by
  rw [markingEq_true_iff] at h1 h2 ⊢
  obtain ⟨ho1, hc1⟩ := h1
  obtain ⟨ho2, hc2⟩ := h2
  refine ⟨ho1.trans ho2, fun p hp => ?_⟩
  rw [hc1 p hp, hc2 p (ho1 ▸ hp)]

/-- Splitting a sum over a duplicate-free list at one distinguished member. -/
theorem sum_map_ite (l : List Place) (a : Place) (f g : Place → Int)
    (hnd : l.Nodup) (ha : a ∈ l) :
    (l.map (fun p => if a = p then f p else g p)).sum = f a - g a + (l.map g).sum := by
  induction l with
  | nil => cases ha
  | cons b bs ih =>
    rw [List.nodup_cons] at hnd
    rcases List.mem_cons.1 ha with hab | ha'
    · subst hab
      have hmap : bs.map (fun p => if a = p then f p else g p) = bs.map g :=
        List.map_congr_left (fun p hp => by
          have : a ≠ p := fun h => hnd.1 (h ▸ hp)
          simp [this])
      simp only [List.map_cons, List.sum_cons, hmap]
      rw [if_pos trivial]
      ring
    · have hne : a ≠ b := fun h => hnd.1 (h ▸ ha')
      simp only [List.map_cons, List.sum_cons, if_neg hne]
      rw [ih hnd.2 ha']
      ring

/-- Well-formedness of a marking as produced by the library: the origin's
place set has no duplicate objects, the dict has no duplicate keys, and
every key of the dict is a place of the origin net. -/
def wfMarking (m : Marking) : Prop :=
  m.origin.places.Nodup ∧ (m.entries.map Prod.fst).Nodup ∧
    ∀ e ∈ m.entries, e.1 ∈ m.origin.places

instance (m : Marking) : Decidable (wfMarking m) := by
  unfold wfMarking
  infer_instance

/-- The hash sum over the dict entries equals the place-indexed sum of
`hash(place) * tokens`, for a well-formed dict. -/
theorem entriesHash_eq_sum_places (places : List Place) (entries : List (Place × Int))
    (hp : places.Nodup) (hk : (entries.map Prod.fst).Nodup)
    (hs : ∀ e ∈ entries, e.1 ∈ places) :
    entriesHash entries = (places.map (fun p => placeHash p * lookupD entries p)).sum := by
  induction entries with
  | nil =>
    simp only [entriesHash, List.map_nil, List.sum_nil]
    refine (List.sum_eq_zero ?_).symm
    intro x hx
    simp only [List.mem_map] at hx
    obtain ⟨p, _, hpx⟩ := hx
    simp [lookupD] at hpx
    omega
  | cons e es ih =>
    rw [List.map_cons, List.nodup_cons] at hk
    have hmem : e.1 ∈ places := hs e (List.mem_cons_self e es)
    have hsub : ∀ x ∈ es, x.1 ∈ places := fun x hx => hs x (List.mem_cons_of_mem e hx)
    have hzero : lookupD es e.1 = 0 := by
      refine lookupD_eq_zero_of_not_mem es e.1 (fun x hx hx1 => ?_)
      exact hk.1 (hx1 ▸ List.mem_map_of_mem Prod.fst hx)
    have hlk : ∀ p, lookupD (e :: es) p = if e.1 = p then e.2 else lookupD es p := by
      intro p; rfl
    have hmap : places.map (fun p => placeHash p * lookupD (e :: es) p) =
        places.map (fun p => if e.1 = p then placeHash p * e.2
          else placeHash p * lookupD es p) :=
      List.map_congr_left (fun p _ => by rw [hlk p]; by_cases h : e.1 = p <;> simp [h])
    rw [hmap, sum_map_ite places e.1 _ _ hp hmem, hzero, ← ih hk.2 hsub]
    simp only [entriesHash, List.map_cons, List.sum_cons]
    ring

/-- C1: two markings are equal exactly when they share their origin net and
agree on token counts at every place of that net, absent entries counting
as zero on either side; and equal (well-formed) markings hash identically,
the hash being the origin's hash plus the commutative sum of
`hash(place) * tokens` over the dict entries. -/
theorem marking_eq_iff_agree_and_hash_consistent (m1 m2 : Marking)
    (h1 : wfMarking m1) (h2 : wfMarking m2) :
    (markingEq m1 m2 = true ↔
      m1.origin = m2.origin ∧
        ∀ p ∈ m1.origin.places, lookupD m1.entries p = lookupD m2.entries p)
    ∧ (markingEq m1 m2 = true → markingHash m1 = markingHash m2) := by
  refine ⟨markingEq_true_iff m1 m2, fun heq => ?_⟩
  obtain ⟨ho, hcnt⟩ := (markingEq_true_iff m1 m2).1 heq
  obtain ⟨hnp1, hk1, hs1⟩ := h1
  obtain ⟨hnp2, hk2, hs2⟩ := h2
  have hpl : m2.origin.places = m1.origin.places := by rw [ho]
  have e1 := entriesHash_eq_sum_places m1.origin.places m1.entries hnp1 hk1 hs1
  have e2 := entriesHash_eq_sum_places m1.origin.places m2.entries hnp1 hk2 (hpl ▸ hs2)
  have hmap : m1.origin.places.map (fun p => placeHash p * lookupD m1.entries p) =
      m1.origin.places.map (fun p => placeHash p * lookupD m2.entries p) :=
    List.map_congr_left (fun p hp => by rw [hcnt p hp])
  unfold markingHash netHash
  rw [e1, e2, hmap, ho]

/-- Witness for C1 at a concrete pair of markings over the same net, built
in different insertion orders and with an explicit zero entry on one side. -/
def wNet : PetriNet := ⟨9, [⟨20, "a"⟩, ⟨21, "b"⟩, ⟨22, "c"⟩], []⟩

theorem marking_eq_iff_agree_and_hash_consistent_witness :
    markingHash ⟨wNet, [(⟨20, "a"⟩, 2), (⟨21, "b"⟩, 1)]⟩ =
      markingHash ⟨wNet, [(⟨21, "b"⟩, 1), (⟨20, "a"⟩, 2), (⟨22, "c"⟩, 0)]⟩ :=
  (marking_eq_iff_agree_and_hash_consistent
    ⟨wNet, [(⟨20, "a"⟩, 2), (⟨21, "b"⟩, 1)]⟩
    ⟨wNet, [(⟨21, "b"⟩, 1), (⟨20, "a"⟩, 2), (⟨22, "c"⟩, 0)]⟩
    (by decide) (by decide)).2 (by decide)

/-! ### Firing semantics -/

/-- Pointwise effect of `Marking.fire` on the dict. -/
theorem lookupD_fireEntries (d : List (Place × Int)) (t : Transition) (p : Place)
    (hi : t.incoming.Nodup) (ho : t.outgoing.Nodup) :
    lookupD (fireEntries d t) p =
      lookupD d p - (if p ∈ t.incoming then 1 else 0)
        + (if p ∈ t.outgoing then 1 else 0) := by
  unfold fireEntries
  rw [lookupD_foldl_incD _ _ _ _ ho, lookupD_foldl_incD _ _ _ _ hi]
  by_cases h1 : p ∈ t.incoming <;> by_cases h2 : p ∈ t.outgoing <;>
    simp [h1, h2, sub_eq_add_neg]

/-- C3: firing a transition decrements each place that is only incoming,
increments each place that is only outgoing, leaves places in both sets
unchanged, leaves every other place unchanged, and returns a marking over
the same origin net. -/
theorem fire_spec (m : Marking) (t : Transition) (p : Place)
    (hi : t.incoming.Nodup) (ho : t.outgoing.Nodup) :
    (fire m t).origin = m.origin
    ∧ (p ∈ t.incoming → p ∉ t.outgoing →
        lookupD (fire m t).entries p = lookupD m.entries p - 1)
    ∧ (p ∉ t.incoming → p ∈ t.outgoing →
        lookupD (fire m t).entries p = lookupD m.entries p + 1)
    ∧ (p ∈ t.incoming → p ∈ t.outgoing →
        lookupD (fire m t).entries p = lookupD m.entries p)
    ∧ (p ∉ t.incoming → p ∉ t.outgoing →
        lookupD (fire m t).entries p = lookupD m.entries p) := by
  have key := lookupD_fireEntries m.entries t p hi ho
  refine ⟨rfl, ?_, ?_, ?_, ?_⟩ <;> intro h1 h2 <;>
    rw [show (fire m t).entries = fireEntries m.entries t from rfl, key] <;>
    simp [h1, h2]

/-- Witness for C3 on the self-loop transition (a place in both sets). -/
theorem fire_spec_witness :
    lookupD (fire selfLoopM0 ⟨"t", [pSelf], [pSelf]⟩).entries pSelf =
      lookupD selfLoopM0.entries pSelf :=
  (fire_spec selfLoopM0 ⟨"t", [pSelf], [pSelf]⟩ pSelf (by decide) (by decide)).2.2.2.1
    (by decide) (by decide)

/-- C4: enablement is true exactly when every incoming place holds at least
one token, a transition with an empty incoming set is always enabled, and
the test depends only on the token counts at the incoming places (so never
on the outgoing places' counts). -/
theorem can_fire_spec (m m' : Marking) (t : Transition)
    (hagree : ∀ p ∈ t.incoming, lookupD m.entries p = lookupD m'.entries p) :
    (can_fire m t = true ↔ ∀ p ∈ t.incoming, 0 < lookupD m.entries p)
    ∧ (t.incoming = [] → can_fire m t = true)
    ∧ can_fire m t = can_fire m' t := by
  refine ⟨by simp [can_fire, List.all_eq_true], fun h => by simp [can_fire, h], ?_⟩
  have hiff : (can_fire m t = true) ↔ (can_fire m' t = true) := by
    simp only [can_fire, List.all_eq_true, decide_eq_true_eq]
    constructor
    · intro H p hp
      rw [← hagree p hp]
      exact H p hp
    · intro H p hp
      rw [hagree p hp]
      exact H p hp
  cases hA : can_fire m t <;> cases hB : can_fire m' t <;> simp_all

/-- Witness for C4: a transition with empty incoming set is enabled in the
empty marking, whatever the outgoing set holds. -/
theorem can_fire_spec_witness :
    can_fire ⟨cycleNet, []⟩ ⟨"src", [], [pC1]⟩ = true :=
  (can_fire_spec ⟨cycleNet, []⟩ ⟨cycleNet, [(pC1, 5)]⟩ ⟨"src", [], [pC1]⟩
    (by decide)).2.1 rfl

/-! ### Immutability of the receiver under `fire` (C7) -/

/-- The store of marking dicts, by object reference: `fire` copies the
receiver's dict (`self.__marking.copy()`), mutates only the copy, and the
new `Marking` holds the copy under a fresh reference. -/
structure DictHeap where
  dicts : Nat → List (Place × Int)
  next : Nat

/-- `Marking.fire` at the store level: read the receiver's dict at `ref`,
build the fired copy, store it under the fresh reference, return it. -/
def fire_on_heap (h : DictHeap) (ref : Nat) (t : Transition) : DictHeap × Nat :=
  (⟨fun r => if r = h.next then fireEntries (h.dicts ref) t else h.dicts r, h.next + 1⟩,
   h.next)

/-- C7: firing never mutates the receiver: after the call, the receiver's
dict at every place reads exactly as before, and the value returned is the
fired copy under the fresh reference. -/
theorem fire_preserves_receiver (h : DictHeap) (ref : Nat) (t : Transition) (p : Place)
    (href : ref < h.next) :
    lookupD ((fire_on_heap h ref t).1.dicts ref) p = lookupD (h.dicts ref) p
    ∧ (fire_on_heap h ref t).1.dicts (fire_on_heap h ref t).2 =
        fireEntries (h.dicts ref) t := by
  have hne : ref ≠ h.next := Nat.ne_of_lt href
  exact ⟨by simp [fire_on_heap, hne], by simp [fire_on_heap]⟩

/-- Witness for C7 on a concrete one-dict heap. -/
theorem fire_preserves_receiver_witness :
    lookupD ((fire_on_heap ⟨fun _ => [(pSelf, 1)], 1⟩ 0 ⟨"t", [pSelf], [pSelf]⟩).1.dicts 0)
        pSelf =
      lookupD ((⟨fun _ => [(pSelf, 1)], 1⟩ : DictHeap).dicts 0) pSelf :=
  (fire_preserves_receiver ⟨fun _ => [(pSelf, 1)], 1⟩ 0 ⟨"t", [pSelf], [pSelf]⟩ pSelf
    (by decide)).1

/-! ### Equality against non-markings (C10) -/

/-- C10: comparing a marking with any non-`Marking` value reads the missing
`origin` attribute before the `isinstance` guard, so it raises an
`AttributeError` instead of returning `False`. -/
theorem marking_eq_non_marking_raises (m : Marking) (v : PyValue)
    (h : ∀ m2, v ≠ PyValue.marking m2) :
    markingEqPy m v = .error (.attributeError "origin") := by
  cases v
  case marking m2 => exact absurd rfl (h m2)
  all_goals rfl

/-- Witness for C10: comparing with the integer 3. -/
theorem marking_eq_non_marking_raises_witness :
    markingEqPy selfLoopM0 (PyValue.int 3) = .error (.attributeError "origin") :=
  marking_eq_non_marking_raises selfLoopM0 (PyValue.int 3)
    (fun _ h => PyValue.noConfusion h)

/-! ### Name-based transition construction (C8) -/

/-- C8: on the name-based path, unmatched incoming/outgoing names are
silently dropped (the created transition holds exactly the net's places
whose names occur in the argument sets), a duplicate transition name is
rejected with `DuplicateNameError`, and no other error can arise (the
membership check cannot fail for places resolved from the net itself). -/
theorem add_transition_spec (net : PetriNet) (nm : String) (inc out : List String) :
    ((∀ t ∈ net.transitions, t.name ≠ nm) →
      add_transition net nm inc out = .ok { net with transitions := net.transitions ++
        [⟨nm, net.places.filter (fun p => p.name ∈ inc),
             net.places.filter (fun p => p.name ∈ out)⟩] })
    ∧ ((∃ t ∈ net.transitions, t.name = nm) →
      add_transition net nm inc out = .error (.duplicateName nm))
    ∧ (∀ e, add_transition net nm inc out = .error e → e = .duplicateName nm) := by
  have hmem : ∀ l : List String,
      (net.places.filter (fun p => p.name ∈ l)).all
        (fun p => decide (p ∈ net.places)) = true := by
    intro l
    simp only [List.all_eq_true, decide_eq_true_eq]
    exact fun p hp => List.mem_of_mem_filter hp
  by_cases hdup : net.transitions.any (fun t2 => t2.name == nm) = true
  · simp only [List.any_eq_true, beq_iff_eq] at hdup
    obtain ⟨t2, ht2, hname⟩ := hdup
    have hres : add_transition net nm inc out = .error (.duplicateName nm) := by
      unfold add_transition addTransitionObj
      rw [if_pos]
      simp only [List.any_eq_true, beq_iff_eq]
      exact ⟨t2, ht2, hname⟩
    refine ⟨fun hno => absurd hname (hno t2 ht2), fun _ => hres, fun e he => ?_⟩
    rw [hres] at he
    exact (Except.error.inj he).symm
  · have hres : add_transition net nm inc out = .ok { net with
        transitions := net.transitions ++
          [⟨nm, net.places.filter (fun p => p.name ∈ inc),
               net.places.filter (fun p => p.name ∈ out)⟩] } := by
      unfold add_transition addTransitionObj
      rw [if_neg hdup, if_pos]
      rw [Bool.and_eq_true]
      exact ⟨hmem inc, hmem out⟩
    refine ⟨fun _ => hres, fun hex => ?_, fun e he => ?_⟩
    · obtain ⟨t2, ht2, hname⟩ := hex
      exact absurd (by simp only [List.any_eq_true, beq_iff_eq]; exact ⟨t2, ht2, hname⟩) hdup
    · rw [hres] at he
      exact Except.noConfusion he

/-- Witness for C8: adding a transition whose arc names are partly unknown
to a fresh copy of the cycle net succeeds and silently drops the unknown
name. -/
theorem add_transition_spec_witness :
    add_transition ⟨7, [pC1, pC2], []⟩ "t9" ["p1", "zzz"] [] =
      .ok ⟨7, [pC1, pC2], [⟨"t9", [pC1], []⟩]⟩ := by
  have h := (add_transition_spec ⟨7, [pC1, pC2], []⟩ "t9" ["p1", "zzz"] []).1
    (by intro t ht; cases ht)
  rw [h]
  rfl

/-! ### Marking construction from name counts (C9) -/

/-- Joint characterization of `compile_marking`: on success every dict key
is a net place named by some item and every item resolved to a net place;
on failure the error is `UnknownPlaceError` for an offending name of the
mapping that names no place of the net; and an unresolvable name forces
failure. -/
theorem compile_marking_spec (net : PetriNet) (tc : List (String × Int)) :
    (∀ d, compile_marking net tc = .ok d →
      (∀ e ∈ d, e.1 ∈ net.places ∧ ∃ pr ∈ tc, e.1.name = pr.1)
      ∧ (∀ pr ∈ tc, ∃ p ∈ net.places, p.name = pr.1))
    ∧ (∀ e, compile_marking net tc = .error e →
      ∃ nm, e = .unknownPlace nm ∧ nm ∈ tc.map Prod.fst ∧ ∀ p ∈ net.places, p.name ≠ nm)
    ∧ ((∃ pr ∈ tc, ∀ p ∈ net.places, p.name ≠ pr.1) →
      ∃ e, compile_marking net tc = .error e) := by
  induction tc with
  | nil =>
    refine ⟨fun d hd => ?_, fun e he => ?_, fun hex => ?_⟩
    · have : d = [] := by
        simp only [compile_marking] at hd
        exact (Except.ok.inj hd).symm
      subst this
      exact ⟨fun e he => absurd he (List.not_mem_nil e), fun pr hpr => absurd hpr (List.not_mem_nil pr)⟩
    · exact absurd he (by simp [compile_marking])
    · obtain ⟨pr, hpr, _⟩ := hex
      exact absurd hpr (List.not_mem_nil pr)
  | cons item rest ih =>
    obtain ⟨nm, tk⟩ := item
    cases hf : net.places.find? (fun p => p.name == nm) with
    | none =>
      have hun : ∀ p ∈ net.places, p.name ≠ nm := by
        intro p hp
        have := List.find?_eq_none.1 hf p hp
        simpa using this
      have hres : compile_marking net ((nm, tk) :: rest) = .error (.unknownPlace nm) := by
        simp only [compile_marking, hf]
      refine ⟨fun d hd => ?_, fun e he => ?_, fun _ => ⟨_, hres⟩⟩
      · rw [hres] at hd; exact Except.noConfusion hd
      · rw [hres] at he
        refine ⟨nm, (Except.error.inj he).symm, ?_, hun⟩
        simp
    | some pl =>
      have hpl_mem : pl ∈ net.places := List.mem_of_find?_eq_some hf
      have hpl_name : pl.name = nm := by
        have := List.find?_some hf
        simpa using this
      cases hc : compile_marking net rest with
      | ok d0 =>
        have hres : compile_marking net ((nm, tk) :: rest) = .ok ((pl, tk) :: d0) := by
          simp only [compile_marking, hf, hc]
        obtain ⟨ihok, iherr, ihex⟩ := ih
        refine ⟨fun d hd => ?_, fun e he => ?_, fun hex => ?_⟩
        · rw [hres] at hd
          have hdd : d = (pl, tk) :: d0 := Except.ok.inj hd.symm
          subst hdd
          obtain ⟨hk0, hr0⟩ := ihok d0 hc
          refine ⟨fun e he => ?_, fun pr hpr => ?_⟩
          · rcases List.mem_cons.1 he with h | h
            · subst h
              exact ⟨hpl_mem, ⟨(nm, tk), List.mem_cons_self _ _, hpl_name⟩⟩
            · obtain ⟨hm, pr, hpr, hnm⟩ := hk0 e h
              exact ⟨hm, pr, List.mem_cons_of_mem _ hpr, hnm⟩
          · rcases List.mem_cons.1 hpr with h | h
            · subst h
              exact ⟨pl, hpl_mem, hpl_name⟩
            · exact hr0 pr h
        · rw [hres] at he; exact Except.noConfusion he
        · obtain ⟨pr, hpr, hunk⟩ := hex
          rcases List.mem_cons.1 hpr with h | h
          · subst h
            exact absurd hpl_name (hunk pl hpl_mem)
          · obtain ⟨e, he⟩ := ihex ⟨pr, h, hunk⟩
            rw [he] at hc
            exact Except.noConfusion hc
      | error e0 =>
        have hres : compile_marking net ((nm, tk) :: rest) = .error e0 := by
          simp only [compile_marking, hf, hc]
        obtain ⟨ihok, iherr, ihex⟩ := ih
        refine ⟨fun d hd => ?_, fun e he => ?_, fun _ => ⟨e0, hres⟩⟩
        · rw [hres] at hd; exact Except.noConfusion hd
        · rw [hres] at he
          have he0 : e = e0 := Except.error.inj he.symm
          obtain ⟨nm2, hnm2, hmem2, hun2⟩ := iherr e0 hc
          exact ⟨nm2, by rw [he0]; exact hnm2, by simpa using Or.inr hmem2, hun2⟩

/-- C9: `as_marked` yields a marking over this net in which every place
whose name is omitted from the mapping holds zero tokens; it fails exactly
when some given name is not the name of a place of the net, and then the
error is `UnknownPlaceError` carrying an offending name. -/
theorem as_marked_spec (net : PetriNet) (tc : List (String × Int)) :
    (∀ m, as_marked net (some tc) = .ok m →
      m.origin = net ∧
        ∀ p ∈ net.places, (∀ pr ∈ tc, pr.1 ≠ p.name) → lookupD m.entries p = 0)
    ∧ (∀ e, as_marked net (some tc) = .error e →
      ∃ nm, e = .unknownPlace nm ∧ nm ∈ tc.map Prod.fst ∧ ∀ p ∈ net.places, p.name ≠ nm)
    ∧ ((∃ pr ∈ tc, ∀ p ∈ net.places, p.name ≠ pr.1) ↔
      ∃ e, as_marked net (some tc) = .error e) := by
  obtain ⟨hok, herr, hex⟩ := compile_marking_spec net tc
  refine ⟨fun m hm => ?_, fun e he => ?_, ?_, ?_⟩
  · cases hc : compile_marking net tc with
    | ok d =>
      simp only [as_marked, hc] at hm
      have hmm : m = ⟨net, d⟩ := (Except.ok.inj hm).symm
      subst hmm
      refine ⟨rfl, fun p hp hnp => ?_⟩
      refine lookupD_eq_zero_of_not_mem d p (fun e he he1 => ?_)
      obtain ⟨_, pr, hpr, hnm⟩ := (hok d hc).1 e he
      exact hnp pr hpr (by rw [← hnm, he1])
    | error e0 =>
      simp only [as_marked, hc] at hm
      exact Except.noConfusion hm
  · cases hc : compile_marking net tc with
    | ok d =>
      simp only [as_marked, hc] at he
      exact Except.noConfusion he
    | error e0 =>
      simp only [as_marked, hc, Except.error.injEq] at he
      subst he
      exact herr e0 hc
  · intro hunk
    obtain ⟨e, he⟩ := hex hunk
    exact ⟨e, by simp only [as_marked, he]⟩
  · rintro ⟨e, he⟩
    cases hc : compile_marking net tc with
    | ok d =>
      simp only [as_marked, hc] at he
      exact Except.noConfusion he
    | error e0 =>
      obtain ⟨nm, _, hmem, hun⟩ := herr e0 hc
      obtain ⟨pr, hpr, hnm⟩ := List.mem_map.1 hmem
      exact ⟨pr, hpr, by rw [hnm]; exact hun⟩

/-- Witness for C9: `{ "p2": 3 }` over the cycle net leaves the omitted
place `p1` at zero. -/
theorem as_marked_spec_witness :
    (⟨cycleNet, [(pC2, 3)]⟩ : Marking).origin = cycleNet ∧
      ∀ p ∈ cycleNet.places, (∀ pr ∈ [("p2", (3 : Int))], pr.1 ≠ p.name) →
        lookupD (⟨cycleNet, [(pC2, 3)]⟩ : Marking).entries p = 0 :=
  (as_marked_spec cycleNet [("p2", 3)]).1 ⟨cycleNet, [(pC2, 3)]⟩ rfl

/-! ### Bound behavior of the exploration loop (C5) -/

/-- In lenient mode (`throw_error = False`) the loop never raises. -/
theorem reachLoop_lenient_no_bound (fuel : Nat) :
    ∀ (st : RState) (it maxIt : Nat), reachLoop fuel st it maxIt false ≠ .boundError := by
  induction fuel with
  | zero =>
    intro st it maxIt h
    exact RunResult.noConfusion h
  | succ n ih =>
    intro st it maxIt
    cases hq : st.queue with
    | nil =>
      intro h
      simp only [reachLoop, hq] at h
      exact RunResult.noConfusion h
    | cons cur rest =>
      simp only [reachLoop, hq]
      by_cases hv : (visitedLookup st.visited ((st.nodes.getD cur default)).marking).isSome = true
      · simp only [hv, if_true]
        exact ih _ _ _
      · simp only [hv, if_false, Bool.false_eq_true]
        by_cases hs : (available_markings ((st.nodes.getD cur default)).marking).isEmpty = true
        · simp only [hs, if_true]
          exact ih _ _ _
        · simp only [hs, if_false, Bool.false_eq_true]
          by_cases hb : maxIt ≤ it + 1
          · simp only [hb, if_true]
            intro h
            simp at h
          · simp only [hb, if_false]
            exact ih _ _ _

/-- Whenever the strict run raises at the bound, the lenient run on the
same inputs returns a graph. -/
theorem reachLoop_strict_bound_lenient (fuel : Nat) :
    ∀ (st : RState) (it maxIt : Nat),
      reachLoop fuel st it maxIt true = .boundError →
      ∃ g, reachLoop fuel st it maxIt false = .graph g := by
  induction fuel with
  | zero =>
    intro st it maxIt h
    exact RunResult.noConfusion h
  | succ n ih =>
    intro st it maxIt h
    cases hq : st.queue with
    | nil =>
      simp only [reachLoop, hq] at h
      exact RunResult.noConfusion h
    | cons cur rest =>
      simp only [reachLoop, hq] at h ⊢
      by_cases hv : (visitedLookup st.visited ((st.nodes.getD cur default)).marking).isSome = true
      · simp only [hv, if_true] at h ⊢
        exact ih _ _ _ h
      · simp only [hv, if_false, Bool.false_eq_true] at h ⊢
        by_cases hs : (available_markings ((st.nodes.getD cur default)).marking).isEmpty = true
        · simp only [hs, if_true] at h ⊢
          exact ih _ _ _ h
        · simp only [hs, if_false, Bool.false_eq_true] at h ⊢
          by_cases hb : maxIt ≤ it + 1
          · simp only [hb, if_true] at h ⊢
            exact ⟨_, rfl⟩
          · simp only [hb, if_false] at h ⊢
            exact ih _ _ _ h

/-- C5: whenever the iteration counter reaches the caller-supplied maximum
before the queue empties, the strict run raises (`BoundExceededError`) and
the lenient run on the same inputs returns the partial graph instead (the
lenient run can never raise); on the two-place cycle net with one token,
`max_iterations = 1` in strict mode raises, while the lenient run returns
the 1-node partial graph of the full 2-node state space. -/
theorem reachability_bound_behavior :
    (∀ (fuel : Nat) (st : RState) (it maxIt : Nat),
      (reachLoop fuel st it maxIt true = .boundError →
        ∃ g, reachLoop fuel st it maxIt false = .graph g)
      ∧ reachLoop fuel st it maxIt false ≠ .boundError)
    ∧ reachability cycleM0 1 true 20 = .boundError
    ∧ nodeCount (reachability cycleM0 1 false 20) = some 1
    ∧ nodeCount (reachability cycleM0 100000 true 20) = some 2 :=
  ⟨fun fuel st it maxIt =>
    ⟨reachLoop_strict_bound_lenient fuel st it maxIt,
     reachLoop_lenient_no_bound fuel st it maxIt⟩,
   by decide, by decide, by decide⟩

/-! ### The self-loop scenario (C6) -/

/-- C6: on the net with one place `p` and one transition `t` with incoming
`{p}` and outgoing `{p}`, reachability from `{p: 1}` yields exactly one
node, that node has an outgoing edge to itself, and it is not a dead
end. -/
theorem self_loop_reachability :
    nodeCount selfLoopRun = some 1
    ∧ (outgoingOf selfLoopRun selfLoopM0).map (fun l => containsMk l selfLoopM0) = some true
    ∧ isDeadEnd selfLoopRun selfLoopM0 = some false := by
  decide

/-! ### Edge recording during successor processing (C2) -/

/-- The diamond's source place `a`. -/
def pda : Place := ⟨10, "a"⟩

/-- The diamond's left place `b`. -/
def pdb : Place := ⟨11, "b"⟩

/-- The diamond's right place `c`. -/
def pdc : Place := ⟨12, "c"⟩

/-- The diamond's sink place `d`. -/
def pdd : Place := ⟨13, "d"⟩

/-- A diamond net: `a` branches to `b` and `c`, which both reach `d`. -/
def diamondNet1 : PetriNet :=
  ⟨2, [pda, pdb, pdc, pdd],
   [⟨"t1", [pda], [pdb]⟩, ⟨"t2", [pda], [pdc]⟩, ⟨"t3", [pdb], [pdd]⟩, ⟨"t4", [pdc], [pdd]⟩]⟩

/-- The same diamond net object with its transition set enumerated in a
different (equally legal, since Python set order is unspecified) order. -/
def diamondNet2 : PetriNet :=
  ⟨2, [pda, pdb, pdc, pdd],
   [⟨"t2", [pda], [pdc]⟩, ⟨"t1", [pda], [pdb]⟩, ⟨"t3", [pdb], [pdd]⟩, ⟨"t4", [pdc], [pdd]⟩]⟩

/-- The diamond run from `{a: 1}` under the first enumeration order. -/
def diamondRun1 : RunResult := reachability ⟨diamondNet1, [(pda, 1)]⟩ 100 true 50

/-- The diamond run from `{a: 1}` under the second enumeration order. -/
def diamondRun2 : RunResult := reachability ⟨diamondNet2, [(pda, 1)]⟩ 100 true 50

/-- Counterexample to C2: in the diamond run, the node for `{c: 1}` was
expanded and its outgoing set contains `{d: 1}`, yet the canonical node
for `{d: 1}` does not contain `{c: 1}` in its incoming set (the incoming
edge was recorded on a duplicate node later discarded); moreover the
incoming set of the `{d: 1}` node differs between the two enumeration
orders (token count at place `b` across its incoming markings is `[1]`
under one order and `[0]` under the other), so the resulting graph
structure is not order-insensitive. -/
theorem reachability_drops_incoming_on_duplicates :
    (outgoingOf diamondRun1 ⟨diamondNet1, [(pdc, 1)]⟩).map
        (fun l => containsMk l ⟨diamondNet1, [(pdd, 1)]⟩) = some true
    ∧ (incomingOf diamondRun1 ⟨diamondNet1, [(pdd, 1)]⟩).map
        (fun l => containsMk l ⟨diamondNet1, [(pdc, 1)]⟩) = some false
    ∧ tokensAtIncoming diamondRun1 ⟨diamondNet1, [(pdd, 1)]⟩ pdb = some [1]
    ∧ tokensAtIncoming diamondRun2 ⟨diamondNet2, [(pdd, 1)]⟩ pdb = some [0] := by
  decide

/-- Node-list read-after-write at the written index. -/
theorem getD_set_self (ns : List RNode) (i : Nat) (a : RNode) (h : i < ns.length) :
    (ns.set i a).getD i default = a := by
  simp [List.getD_eq_getElem?_getD, List.getElem?_set_self h]

/-- Node-list read-after-write at a different index. -/
theorem getD_set_other (ns : List RNode) (i j : Nat) (a : RNode) (h : i ≠ j) :
    (ns.set i a).getD j default = ns.getD j default := by
  simp [List.getD_eq_getElem?_getD, List.getElem?_set_ne h]

/-- Reading the freshly appended node. -/
theorem getD_append_self (ns : List RNode) (a : RNode) :
    (ns ++ [a]).getD ns.length default = a := by
  simp [List.getD_eq_getElem?_getD, List.getElem?_concat_length]

/-- Appending does not change reads inside the list. -/
theorem getD_append_left (ns : List RNode) (a : RNode) (j : Nat) (h : j < ns.length) :
    (ns ++ [a]).getD j default = ns.getD j default := by
  simp [List.getD_eq_getElem?_getD, List.getElem?_append_left h]

/-- `updNode` rewrites exactly the addressed node. -/
theorem updNode_getD_self (ns : List RNode) (i : Nat) (f : RNode → RNode)
    (h : i < ns.length) : (updNode ns i f).getD i default = f (ns.getD i default) :=
  getD_set_self ns i _ h

/-- `updNode` leaves other nodes untouched. -/
theorem updNode_getD_other (ns : List RNode) (i j : Nat) (f : RNode → RNode)
    (h : i ≠ j) : (updNode ns i f).getD j default = ns.getD j default :=
  getD_set_other ns i j _ h

/-- `updNode` preserves the heap size. -/
theorem updNode_length (ns : List RNode) (i : Nat) (f : RNode → RNode) :
    (updNode ns i f).length = ns.length :=
  List.length_set ns i _

/-- Adding a member equal to `m` makes the set contain `m`. -/
theorem containsMk_addMk (l : List Marking) (x m : Marking)
    (h : markingEq x m = true) : containsMk (addMk l x) m = true := by
  unfold addMk
  by_cases hc : containsMk l x = true
  · rw [if_pos hc]
    unfold containsMk at hc ⊢
    rw [List.any_eq_true] at hc ⊢
    obtain ⟨y, hy, hyx⟩ := hc
    exact ⟨y, hy, markingEq_trans hyx h⟩
  · rw [if_neg hc]
    unfold containsMk
    rw [List.any_eq_true]
    exact ⟨x, by simp, h⟩

/-- C2 (amended): when a successor marking `m` of the current node is
processed, the current node's outgoing set afterwards contains `m`; the
back link is recorded on the canonical node only when `m` is already in
the visited map; when it is not, the incoming edge goes to the freshly
allocated node that is appended to the queue — even if an equal-marking
node is already queued, in which case that fresh node is later discarded
as a duplicate and the final incoming sets depend on iteration order. -/
theorem process_one_links (st : RState) (cur : Nat) (m : Marking)
    (hcur : cur < st.nodes.length)
    (hcanon : ∀ i, visitedLookup st.visited m = some i →
      i < st.nodes.length ∧ markingEq ((st.nodes.getD i default)).marking m = true) :
    containsMk (((processOne st cur m).nodes.getD cur default)).outgoing m = true
    ∧ (∀ i, visitedLookup st.visited m = some i →
        containsMk (((processOne st cur m).nodes.getD i default)).incoming
          ((st.nodes.getD cur default)).marking = true)
    ∧ (visitedLookup st.visited m = Option.none →
        ((processOne st cur m).nodes.getD st.nodes.length default).marking = m
        ∧ containsMk (((processOne st cur m).nodes.getD st.nodes.length default)).incoming
            ((st.nodes.getD cur default)).marking = true
        ∧ (processOne st cur m).queue = st.queue ++ [st.nodes.length]) := by
  cases hv : visitedLookup st.visited m with
  | none =>
    have hne : cur ≠ st.nodes.length := Nat.ne_of_lt hcur
    have hcur1 : cur < (st.nodes ++ [(⟨st.nodes.length, m, [], []⟩ : RNode)]).length := by
      simp
      omega
    simp only [processOne, hv, linkNodes]
    refine ⟨?_, fun i hi => Option.noConfusion hi, fun _ => ⟨?_, ?_, trivial⟩⟩
    · rw [updNode_getD_other _ _ _ _ hne.symm, updNode_getD_self _ _ _ hcur1,
        getD_append_self, getD_append_left _ _ _ hcur]
      exact containsMk_addMk _ _ _ (markingEq_refl m)
    · rw [updNode_getD_self _ _ _ (by rw [updNode_length]; simp),
        updNode_getD_other _ _ _ _ hne, getD_append_self]
    · rw [updNode_getD_self _ _ _ (by rw [updNode_length]; simp),
        updNode_getD_other _ _ _ _ hne, getD_append_self,
        updNode_getD_self _ _ _ hcur1, getD_append_left _ _ _ hcur]
      show containsMk (addMk [] ((st.nodes.getD cur default)).marking)
          ((st.nodes.getD cur default)).marking = true
      exact containsMk_addMk _ _ _ (markingEq_refl _)
  | some nid =>
    obtain ⟨hlt, hmeq⟩ := hcanon nid hv
    simp only [processOne, hv, linkNodes]
    have hlt2 : nid < (updNode st.nodes cur
        (fun n => { n with
          outgoing := addMk n.outgoing ((st.nodes.getD nid default)).marking })).length := by
      rw [updNode_length]
      exact hlt
    refine ⟨?_, ?_, fun hno => Option.noConfusion hno⟩
    · by_cases heq : nid = cur
      · subst heq
        rw [updNode_getD_self _ _ _ hlt2, updNode_getD_self _ _ _ hlt]
        exact containsMk_addMk _ _ _ hmeq
      · rw [updNode_getD_other _ _ _ _ heq, updNode_getD_self _ _ _ hcur]
        exact containsMk_addMk _ _ _ hmeq
    · intro i hi
      have hii : nid = i := Option.some.inj hi
      subst hii
      rw [updNode_getD_self _ _ _ hlt2, updNode_getD_self _ _ _ hcur]
      exact containsMk_addMk _ _ _ (markingEq_refl _)

/-- Witness for the amended C2 on a concrete fresh-successor step. -/
theorem process_one_links_witness :
    containsMk (((processOne (initState cycleM0) 0 ⟨cycleNet, [(pC2, 1)]⟩).nodes.getD 0
        default)).outgoing ⟨cycleNet, [(pC2, 1)]⟩ = true :=
  (process_one_links (initState cycleM0) 0 ⟨cycleNet, [(pC2, 1)]⟩ (by decide)
    (fun i hi => Option.noConfusion hi)).1
